import Mathlib

/-!
Verification development for the `FeatureSelection` notebook.

The notebook is a linear sequence of cells that build a small synthetic
table, apply the scikit-learn scalers `StandardScaler`, `RobustScaler`,
`MinMaxScaler` and `MaxAbsScaler` to it, and then run the selectors
`SelectKBest(chi2)`, `RFE` and `RFECV` on the breast-cancer table.

Tables are embedded as lists of rows of real numbers.  The library
transformers invoked by the notebook are not part of the repository, so
each of them is modelled from the specification's description of the
external collaborator (per-column scaling that discards no feature,
selection that keeps a subset of columns, recursive elimination that
removes one least-important feature per round); the notebook's own cells
(data generation, the order of calls, absence of error handling, printed
and plotted outputs) are embedded directly from the source.
-/

open scoped Classical

namespace FeatureSelection

/-- A data table: a list of rows, each row a list of real-valued features. -/
abbrev Table := List (List ℝ)

/-- `hasShape t m n`: the table has `m` rows, each of length `n`. -/
def hasShape (t : Table) (m n : ℕ) : Prop :=
  t.length = m ∧ ∀ r ∈ t, r.length = n

/-- The values of column `j`, one per row; a missing entry reads as `0`. -/
def colVals (t : Table) (j : ℕ) : List ℝ :=
  t.map (fun r => r.getD j 0)

/-- Minimum of a list of reals (`0` for the empty list). -/
noncomputable def listMin : List ℝ → ℝ
  | [] => 0
  | [x] => x
  | x :: y :: xs => min x (listMin (y :: xs))

/-- Maximum of a list of reals (`0` for the empty list). -/
noncomputable def listMax : List ℝ → ℝ
  | [] => 0
  | [x] => x
  | x :: y :: xs => max x (listMax (y :: xs))

/-- Maximum absolute value of a list of reals. -/
noncomputable def maxAbs (xs : List ℝ) : ℝ :=
  listMax (xs.map (fun x => |x|))

/-- Arithmetic mean of a list of reals. -/
noncomputable def mean (xs : List ℝ) : ℝ :=
  xs.sum / xs.length

/-- Population variance of a list of reals. -/
noncomputable def variance (xs : List ℝ) : ℝ :=
  ((xs.map (fun x => (x - mean xs) ^ 2)).sum) / xs.length

/-- Standard deviation of a list of reals. -/
noncomputable def stddev (xs : List ℝ) : ℝ :=
  Real.sqrt (variance xs)

/-- A column scale of `0` is replaced by `1`, so constant columns are not
divided by zero (scikit-learn's `_handle_zeros_in_scale`). -/
noncomputable def handleZeros (s : ℝ) : ℝ :=
  if s = 0 then 1 else s

/-- Linear-interpolation percentile of a list (numpy's default scheme),
used by the robust scaler's quartiles. -/
noncomputable def percentile (p : ℝ) (xs : List ℝ) : ℝ :=
  let s := xs.insertionSort (· ≤ ·)
  let idx : ℝ := p / 100 * ((s.length : ℝ) - 1)
  let lo := s.getD (⌊idx⌋).toNat 0
  let hi := s.getD (⌈idx⌉).toNat 0
  lo + (idx - ⌊idx⌋) * (hi - lo)

/-- Transform one row entrywise: entry `j` becomes `(x - shift j) / scale j`.
The recursion carries the current column index. -/
noncomputable def scaleRowAux (shift scale : ℕ → ℝ) : ℕ → List ℝ → List ℝ
  | _, [] => []
  | j, x :: xs => (x - shift j) / scale j :: scaleRowAux shift scale (j + 1) xs

/-- Transform one row, starting at column `0`. -/
noncomputable def scaleRow (shift scale : ℕ → ℝ) (row : List ℝ) : List ℝ :=
  scaleRowAux shift scale 0 row

/-- Generic per-column scaler: every scaler of the notebook fits the
template `x ↦ (x - shift) / scale` with per-column statistics fitted on
the whole table. -/
noncomputable def scaleTable (shift scale : Table → ℕ → ℝ) (t : Table) : Table :=
  t.map (scaleRow (shift t) (scale t))

/-- Modelled from the spec: `StandardScaler.fit_transform` standardizes
each feature by removing the column mean and scaling to unit variance. -/
noncomputable def standardScaler (t : Table) : Table :=
  scaleTable (fun t j => mean (colVals t j))
    (fun t j => handleZeros (stddev (colVals t j))) t

/-- Modelled from the spec: `RobustScaler.fit_transform` removes the
column median and scales by the interquartile range. -/
noncomputable def robustScaler (t : Table) : Table :=
  scaleTable (fun t j => percentile 50 (colVals t j))
    (fun t j => handleZeros (percentile 75 (colVals t j) - percentile 25 (colVals t j))) t

/-- Modelled from the spec: `MinMaxScaler.fit_transform` rescales each
feature to the default range `[0, 1]` using the column minimum and
maximum. -/
noncomputable def minMaxScaler (t : Table) : Table :=
  scaleTable (fun t j => listMin (colVals t j))
    (fun t j => handleZeros (listMax (colVals t j) - listMin (colVals t j))) t

/-- Modelled from the spec: `MaxAbsScaler.fit_transform` scales each
feature by its maximum absolute value, with no shift. -/
noncomputable def maxAbsScaler (t : Table) : Table :=
  scaleTable (fun _ _ => 0)
    (fun t j => handleZeros (maxAbs (colVals t j))) t

/-- The synthetic table of the notebook's data-generation cell:
100 rows whose four columns are filled from the random draws
`r0 i ∈ [0,1)` (np.random.random), `r1 i` (np.random.randn),
`k2 i ∈ [-50,25)` (np.random.randint) and `r3 i ∈ [0,1)`:
`[r0*2 + 1.5, r1, k2/10, exp(r3 + 1.5)]`. -/
noncomputable def testDataTable (r0 r1 : ℕ → ℝ) (k2 : ℕ → ℤ) (r3 : ℕ → ℝ) : Table :=
  (List.range 100).map (fun i =>
    [r0 i * 2 + 1.5, r1 i, (k2 i : ℝ) / 10, Real.exp (r3 i + 1.5)])

/-! ### Shape lemmas -/

theorem length_scaleRowAux (shift scale : ℕ → ℝ) :
    ∀ (j : ℕ) (row : List ℝ), (scaleRowAux shift scale j row).length = row.length
  | _, [] => rfl
  | j, _ :: xs => by
      simpa [scaleRowAux] using length_scaleRowAux shift scale (j + 1) xs

theorem length_scaleRow (shift scale : ℕ → ℝ) (row : List ℝ) :
    (scaleRow shift scale row).length = row.length :=
  length_scaleRowAux shift scale 0 row

theorem hasShape_scaleTable (shift scale : Table → ℕ → ℝ) (t : Table) (m n : ℕ)
    (h : hasShape t m n) : hasShape (scaleTable shift scale t) m n := by
  obtain ⟨hm, hn⟩ := h
  refine ⟨by simpa [scaleTable] using hm, ?_⟩
  intro r hr
  simp only [scaleTable, List.mem_map] at hr
  obtain ⟨r₀, hr₀, rfl⟩ := hr
  rw [length_scaleRow]
  exact hn r₀ hr₀

theorem hasShape_testDataTable (r0 r1 : ℕ → ℝ) (k2 : ℕ → ℤ) (r3 : ℕ → ℝ) :
    hasShape (testDataTable r0 r1 k2 r3) 100 4 := by
  constructor
  · simp [testDataTable]
  · intro r hr
    simp only [testDataTable, List.mem_map] at hr
    obtain ⟨i, _, rfl⟩ := hr
    rfl

/-! ### Bounds of the synthetic data -/

/-- The per-column bounds claimed for `test_data`: column 0 in
`[1.5, 3.5)`, column 2 in `[-5, 2.4]` and an integer multiple of `0.1`,
column 3 of the form `exp (r + 1.5)` with `r ∈ [0, 1)`, hence positive. -/
def testDataColBounds (t : Table) : Prop :=
  ∀ row ∈ t,
    (1.5 ≤ row.getD 0 0 ∧ row.getD 0 0 < 3.5) ∧
    (-5 ≤ row.getD 2 0 ∧ row.getD 2 0 ≤ 2.4 ∧ ∃ k : ℤ, row.getD 2 0 = (k : ℝ) * (1 / 10)) ∧
    (∃ r : ℝ, 0 ≤ r ∧ r < 1 ∧ row.getD 3 0 = Real.exp (r + 1.5)) ∧
    0 < row.getD 3 0

/-- C9: on every execution of the synthetic-data cell (that is, for all
random draws within the generators' documented ranges), `test_data`
satisfies the stated column bounds: column 0 lies in `[1.5, 3.5)`,
column 2 lies in `[-5.0, 2.4]` and is an integer multiple of `0.1`, and
column 3 equals `exp (r + 1.5)` for some `r ∈ [0, 1)` and is therefore
strictly positive. -/
theorem testData_column_bounds (r0 r1 : ℕ → ℝ) (k2 : ℕ → ℤ) (r3 : ℕ → ℝ)
    (h0 : ∀ i, 0 ≤ r0 i ∧ r0 i < 1)
    (h2 : ∀ i, -50 ≤ k2 i ∧ k2 i < 25)
    (h3 : ∀ i, 0 ≤ r3 i ∧ r3 i < 1) :
    testDataColBounds (testDataTable r0 r1 k2 r3) := by
  intro row hrow
  simp only [testDataTable, List.mem_map] at hrow
  obtain ⟨i, -, rfl⟩ := hrow
  obtain ⟨h0l, h0r⟩ := h0 i
  obtain ⟨h2l, h2r⟩ := h2 i
  obtain ⟨h3l, h3r⟩ := h3 i
  have hk : ((k2 i : ℝ)) ≤ 24 := by
    have : k2 i ≤ 24 := by omega
    exact_mod_cast this
  have hk2 : (-50 : ℝ) ≤ (k2 i : ℝ) := by exact_mod_cast h2l
  refine ⟨⟨by simpa using by linarith, by simpa using by linarith⟩,
    ⟨by simpa using by linarith, by simpa using by linarith, ⟨k2 i, by simp; ring⟩⟩,
    ⟨r3 i, h3l, h3r, rfl⟩, by simpa using Real.exp_pos (r3 i + 1.5)⟩

/-- Witness for C9 at the all-zero random draws. -/
theorem testData_column_bounds_witness :
    testDataColBounds
      (testDataTable (fun _ => 0) (fun _ => 0) (fun _ => 0) (fun _ => 0)) :=
  testData_column_bounds _ _ _ _ (fun _ => by norm_num)
    (fun _ => by norm_num) (fun _ => by norm_num)

/-- C1: every scaling operation the notebook applies (`StandardScaler`,
`RobustScaler`, `MinMaxScaler`, `MaxAbsScaler` via `fit_transform`)
returns a table of exactly the shape of its input: on the 100-row,
4-column synthetic table `test_data`, each of `scaled1`..`scaled4` has
100 rows and 4 columns, so no feature column is discarded. -/
theorem scalers_preserve_testData_shape (r0 r1 : ℕ → ℝ) (k2 : ℕ → ℤ) (r3 : ℕ → ℝ) :
    hasShape (standardScaler (testDataTable r0 r1 k2 r3)) 100 4 ∧
    hasShape (robustScaler (testDataTable r0 r1 k2 r3)) 100 4 ∧
    hasShape (minMaxScaler (testDataTable r0 r1 k2 r3)) 100 4 ∧
    hasShape (maxAbsScaler (testDataTable r0 r1 k2 r3)) 100 4 :=
  ⟨hasShape_scaleTable _ _ _ _ _ (hasShape_testDataTable r0 r1 k2 r3),
   hasShape_scaleTable _ _ _ _ _ (hasShape_testDataTable r0 r1 k2 r3),
   hasShape_scaleTable _ _ _ _ _ (hasShape_testDataTable r0 r1 k2 r3),
   hasShape_scaleTable _ _ _ _ _ (hasShape_testDataTable r0 r1 k2 r3)⟩

/-! ### List access helpers -/

theorem getD_eq_default_of_le {α : Type} (d : α) :
    ∀ (l : List α) (i : ℕ), l.length ≤ i → l.getD i d = d
  | [], _, _ => rfl
  | _ :: l, i + 1, h => getD_eq_default_of_le d l i (by simpa using h)
  | _ :: _, 0, h => absurd h (by simp)

theorem getD_mem_of_lt {α : Type} (d : α) :
    ∀ (l : List α) (i : ℕ), i < l.length → l.getD i d ∈ l
  | [], _, h => absurd h (by simp)
  | x :: l, 0, _ => List.mem_cons_self x l
  | x :: l, i + 1, h =>
      List.mem_cons_of_mem x (getD_mem_of_lt d l i (by simpa using h))

theorem getD_map_of_lt {α β : Type} (f : α → β) (d : α) (e : β) :
    ∀ (l : List α) (i : ℕ), i < l.length → (l.map f).getD i e = f (l.getD i d)
  | [], _, h => absurd h (by simp)
  | _ :: _, 0, _ => rfl
  | _ :: l, i + 1, h => getD_map_of_lt f d e l i (by simpa using h)

/-! ### Minimum / maximum lemmas -/

theorem listMax_cons_cons (a b : ℝ) (l : List ℝ) :
    listMax (a :: b :: l) = max a (listMax (b :: l)) := rfl

theorem listMin_cons_cons (a b : ℝ) (l : List ℝ) :
    listMin (a :: b :: l) = min a (listMin (b :: l)) := rfl

theorem le_listMax : ∀ {xs : List ℝ} {x : ℝ}, x ∈ xs → x ≤ listMax xs
  | [], x, h => absurd h (List.not_mem_nil x)
  | [y], x, h => by
      rw [List.mem_singleton] at h
      subst h; exact le_refl _
  | y :: z :: xs, x, h => by
      rcases List.mem_cons.mp h with h1 | h2
      · subst h1
        rw [listMax_cons_cons]
        exact le_max_left _ _
      · rw [listMax_cons_cons]
        exact le_trans (le_listMax h2) (le_max_right _ _)

theorem listMin_le : ∀ {xs : List ℝ} {x : ℝ}, x ∈ xs → listMin xs ≤ x
  | [], x, h => absurd h (List.not_mem_nil x)
  | [y], x, h => by
      rw [List.mem_singleton] at h
      subst h; exact le_refl _
  | y :: z :: xs, x, h => by
      rcases List.mem_cons.mp h with h1 | h2
      · subst h1
        rw [listMin_cons_cons]
        exact min_le_left _ _
      · rw [listMin_cons_cons]
        exact le_trans (min_le_right _ _) (listMin_le h2)

theorem listMax_eq_zero_of_forall :
    ∀ {xs : List ℝ}, (∀ x ∈ xs, x = 0) → listMax xs = 0
  | [], _ => rfl
  | [y], h => h y (List.mem_singleton_self y)
  | y :: z :: xs, h => by
      rw [listMax_cons_cons, h y (List.mem_cons_self _ _),
        listMax_eq_zero_of_forall (fun x hx => h x (List.mem_cons_of_mem _ hx))]
      exact max_self 0

theorem abs_le_maxAbs {x : ℝ} {xs : List ℝ} (h : x ∈ xs) : |x| ≤ maxAbs xs :=
  le_listMax (List.mem_map_of_mem _ h)

theorem maxAbs_nonneg (xs : List ℝ) : 0 ≤ maxAbs xs := by
  cases xs with
  | nil => exact le_refl 0
  | cons x l =>
      exact le_trans (abs_nonneg x) (abs_le_maxAbs (List.mem_cons_self x l))

theorem eq_zero_of_maxAbs_eq_zero {x : ℝ} {xs : List ℝ}
    (h : maxAbs xs = 0) (hx : x ∈ xs) : x = 0 :=
  abs_eq_zero.mp (le_antisymm (h ▸ abs_le_maxAbs hx) (abs_nonneg x))

theorem maxAbs_eq_zero_of_forall {xs : List ℝ} (h : ∀ x ∈ xs, x = 0) :
    maxAbs xs = 0 := by
  refine listMax_eq_zero_of_forall ?_
  intro x hx
  simp only [List.mem_map] at hx
  obtain ⟨y, hy, rfl⟩ := hx
  rw [h y hy]
  exact abs_zero

theorem listMax_map_div (m : ℝ) (hm : 0 < m) :
    ∀ xs : List ℝ, listMax (xs.map (fun x => x / m)) = listMax xs / m
  | [] => by simp [listMax]
  | [x] => rfl
  | x :: y :: xs => by
      rw [List.map_cons, List.map_cons, listMax_cons_cons,
        ← List.map_cons (fun x => x / m) y xs, listMax_map_div m hm (y :: xs),
        listMax_cons_cons, max_div_div_right hm.le]

theorem maxAbs_map_div (m : ℝ) (hm : 0 < m) (xs : List ℝ) :
    maxAbs (xs.map (fun x => x / m)) = maxAbs xs / m := by
  unfold maxAbs
  rw [List.map_map]
  have : ((fun x => |x|) ∘ fun x => x / m) = (fun x => x / m) ∘ (fun x : ℝ => |x|) := by
    funext x
    simp only [Function.comp_apply, abs_div, abs_of_pos hm]
  rw [this, ← List.map_map, listMax_map_div m hm]

theorem sign_div_of_pos (x m : ℝ) (hm : 0 < m) :
    Real.sign (x / m) = Real.sign x := by
  rcases lt_trichotomy x 0 with hx | hx | hx
  · rw [Real.sign_of_neg hx, Real.sign_of_neg (div_neg_of_neg_of_pos hx hm)]
  · rw [hx, zero_div]
  · rw [Real.sign_of_pos hx, Real.sign_of_pos (div_pos hx hm)]

/-! ### Entrywise description of the max-abs scaler -/

theorem handleZeros_pos {s : ℝ} (hs : 0 ≤ s) : 0 < handleZeros s := by
  unfold handleZeros
  by_cases h : s = 0
  · rw [if_pos h]; exact one_pos
  · rw [if_neg h]; exact lt_of_le_of_ne hs (Ne.symm h)

theorem getD_scaleRowAux (sh sc : ℕ → ℝ) :
    ∀ (j : ℕ) (r : List ℝ) (i : ℕ), i < r.length →
      (scaleRowAux sh sc j r).getD i 0 = (r.getD i 0 - sh (j + i)) / sc (j + i)
  | _, [], _, h => absurd h (by simp)
  | j, x :: xs, 0, _ => by simp [scaleRowAux]
  | j, x :: xs, i + 1, h => by
      have ih := getD_scaleRowAux sh sc (j + 1) xs i (by simpa using h)
      rw [show j + 1 + i = j + (i + 1) from by omega] at ih
      simpa [scaleRowAux] using ih

theorem getD_scaleRow (sh sc : ℕ → ℝ) (r : List ℝ) (i : ℕ) (h : i < r.length) :
    (scaleRow sh sc r).getD i 0 = (r.getD i 0 - sh i) / sc i := by
  simpa using getD_scaleRowAux sh sc 0 r i h

/-- On every row, dividing by the (zero-guarded) column scale describes
the max-abs scaler entrywise, including out-of-range reads. -/
theorem colVals_maxAbsScaler (t : Table) (j : ℕ) :
    colVals (maxAbsScaler t) j =
      (colVals t j).map (fun x => x / handleZeros (maxAbs (colVals t j))) := by
  simp only [colVals, maxAbsScaler, scaleTable, List.map_map]
  apply List.map_congr_left
  intro r _
  simp only [Function.comp_apply]
  by_cases hj : j < r.length
  · rw [getD_scaleRow _ _ _ _ hj, sub_zero]
  · rw [getD_eq_default_of_le 0 _ j (by rw [length_scaleRow]; omega),
      getD_eq_default_of_le 0 r j (by omega), zero_div]

theorem maxAbsScaler_entry_handleZeros (t : Table) (i j : ℕ) :
    ((maxAbsScaler t).getD i []).getD j 0 =
      (t.getD i []).getD j 0 / handleZeros (maxAbs (colVals t j)) := by
  by_cases hi : i < t.length
  · have hmap : (maxAbsScaler t).getD i [] =
        scaleRow (fun _ => 0) (fun k => handleZeros (maxAbs (colVals t k))) (t.getD i []) :=
      getD_map_of_lt _ [] [] t i hi
    rw [hmap]
    by_cases hj : j < (t.getD i []).length
    · rw [getD_scaleRow _ _ _ _ hj, sub_zero]
    · rw [getD_eq_default_of_le 0 _ j (by rw [length_scaleRow]; omega),
        getD_eq_default_of_le 0 _ j (by omega), zero_div]
  · rw [getD_eq_default_of_le [] t i (by omega),
      getD_eq_default_of_le [] (maxAbsScaler t) i
        (by simp only [maxAbsScaler, scaleTable, List.length_map]; omega)]
    simp

theorem entry_mem_colVals (t : Table) (i j : ℕ) (hi : i < t.length) :
    (t.getD i []).getD j 0 ∈ colVals t j :=
  List.mem_map_of_mem _ (getD_mem_of_lt [] t i hi)

/-- If a column has maximum absolute value `0`, every read of it is `0`. -/
theorem entry_eq_zero_of_maxAbs_eq_zero (t : Table) (i j : ℕ)
    (h : maxAbs (colVals t j) = 0) : (t.getD i []).getD j 0 = 0 := by
  by_cases hi : i < t.length
  · exact eq_zero_of_maxAbs_eq_zero h (entry_mem_colVals t i j hi)
  · rw [getD_eq_default_of_le [] t i (by omega)]
    rfl

/-- C8 (amended): the max-abs scaler is a pure per-column rescaling with
no shift: every entry of the output equals the corresponding input entry
divided by the column's maximum absolute value, so zero entries map to
zero and every entry keeps its sign; and for every column that contains
at least one nonzero entry, the maximum absolute value of the output
column is exactly `1` (an all-zero column is left all-zero, with maximum
absolute value `0`, not `1`). -/
theorem maxAbsScaler_entries (t : Table) (i j : ℕ) :
    ((maxAbsScaler t).getD i []).getD j 0 =
      (t.getD i []).getD j 0 / maxAbs (colVals t j) ∧
    ((t.getD i []).getD j 0 = 0 → ((maxAbsScaler t).getD i []).getD j 0 = 0) ∧
    Real.sign (((maxAbsScaler t).getD i []).getD j 0) =
      Real.sign ((t.getD i []).getD j 0) ∧
    ((∃ x ∈ colVals t j, x ≠ 0) → maxAbs (colVals (maxAbsScaler t) j) = 1) := by
  have hE := maxAbsScaler_entry_handleZeros t i j
  have hm0 : 0 ≤ maxAbs (colVals t j) := maxAbs_nonneg _
  have hdiv : ((maxAbsScaler t).getD i []).getD j 0 =
      (t.getD i []).getD j 0 / maxAbs (colVals t j) := by
    by_cases h : maxAbs (colVals t j) = 0
    · rw [hE, h, entry_eq_zero_of_maxAbs_eq_zero t i j h, zero_div, zero_div]
    · rw [hE, handleZeros, if_neg h]
  refine ⟨hdiv, ?_, ?_, ?_⟩
  · intro hx
    rw [hdiv, hx, zero_div]
  · rw [hE]
    exact sign_div_of_pos _ _ (handleZeros_pos hm0)
  · rintro ⟨x, hx, hx0⟩
    have hxabs : 0 < |x| := abs_pos.mpr hx0
    have hm : 0 < maxAbs (colVals t j) := lt_of_lt_of_le hxabs (abs_le_maxAbs hx)
    have hz : handleZeros (maxAbs (colVals t j)) = maxAbs (colVals t j) := by
      rw [handleZeros, if_neg hm.ne.symm]
    rw [colVals_maxAbsScaler, hz, maxAbs_map_div _ hm, div_self hm.ne.symm]

/-- Witness for the amended C8 on the one-entry table `[[2]]`, whose only
column has the nonzero entry `2`. -/
theorem maxAbsScaler_entries_witness :
    maxAbs (colVals (maxAbsScaler [[(2 : ℝ)]]) 0) = 1 :=
  (maxAbsScaler_entries [[(2 : ℝ)]] 0 0).2.2.2
    ⟨2, by simp [colVals], by norm_num⟩

/-- Counterexample to C8 as stated: on the legitimate execution of the
data-generation cell in which every random draw is `0` (the draws all lie
in the generators' ranges), column 1 of `test_data` is all zeros, and the
max-abs-scaled output column has maximum absolute value `0`, not `1`. -/
theorem maxAbs_claim_counterexample :
    (∀ _ : ℕ, (0 : ℝ) ≤ 0 ∧ (0 : ℝ) < 1) ∧
    (∀ _ : ℕ, (-50 : ℤ) ≤ 0 ∧ (0 : ℤ) < 25) ∧
    maxAbs (colVals (maxAbsScaler
      (testDataTable (fun _ => 0) (fun _ => 0) (fun _ => 0) (fun _ => 0))) 1) ≠ 1 := by
  refine ⟨fun _ => by norm_num, fun _ => by norm_num, ?_⟩
  have hcol : ∀ x ∈ colVals (maxAbsScaler
      (testDataTable (fun _ => 0) (fun _ => 0) (fun _ => 0) (fun _ => 0))) 1, x = 0 := by
    rw [colVals_maxAbsScaler]
    intro x hx
    simp only [List.mem_map] at hx
    obtain ⟨y, hy, rfl⟩ := hx
    have hy0 : y = 0 := by
      simp only [colVals, testDataTable, List.mem_map] at hy
      obtain ⟨r, ⟨k, -, rfl⟩, rfl⟩ := hy
      rfl
    rw [hy0, zero_div]
  rw [maxAbs_eq_zero_of_forall hcol]
  norm_num

/-! ### The chi-squared scorer and its positivity precondition -/

/-- Modelled from the spec: the chi-squared statistic of one feature
column against the class labels `y`, as the univariate scorer computes
it: per class, the observed per-class feature mass is compared with the
mass expected from the class frequencies. -/
noncomputable def chi2Stat (col : List ℝ) (y : List ℤ) : ℝ :=
  (y.dedup.map (fun c =>
    let obs := (((col.zip y).filter (fun p => p.2 = c)).map Prod.fst).sum
    let e := (((y.filter (fun b => b = c)).length : ℝ) / (y.length : ℝ)) * col.sum
    (obs - e) ^ 2 / e)).sum

/-- Modelled from the spec: the `chi2` scoring function rejects any
table containing a negative entry (its documented error branch, quoted
in the notebook's comment that the chi-squared test requires
nonnegative features) and otherwise returns one score per feature
column. -/
noncomputable def chi2 (t : Table) (y : List ℤ) : Except String (List ℝ) :=
  if ∃ r ∈ t, ∃ x ∈ r, x < 0 then Except.error "Input X must be non-negative."
  else Except.ok ((List.range (t.headD []).length).map
    (fun j => chi2Stat (colVals t j) y))

theorem mem_scaleRowAux {sh sc : ℕ → ℝ} :
    ∀ {j : ℕ} {r : List ℝ} {x : ℝ}, x ∈ scaleRowAux sh sc j r →
      ∃ i, i < r.length ∧ x = (r.getD i 0 - sh (j + i)) / sc (j + i)
  | _, [], x, h => absurd h (by simp [scaleRowAux])
  | j, y :: ys, x, h => by
      rw [scaleRowAux] at h
      rcases List.mem_cons.mp h with h1 | h2
      · exact ⟨0, by simp, by simpa using h1⟩
      · obtain ⟨i, hi, rfl⟩ := mem_scaleRowAux h2
        refine ⟨i + 1, by simpa using hi, ?_⟩
        rw [show j + 1 + i = j + (i + 1) from by omega, List.getD_cons_succ]

theorem mem_scaleRow {sh sc : ℕ → ℝ} {r : List ℝ} {x : ℝ}
    (h : x ∈ scaleRow sh sc r) :
    ∃ i, i < r.length ∧ x = (r.getD i 0 - sh i) / sc i := by
  rw [scaleRow] at h
  obtain ⟨i, hi, hx⟩ := mem_scaleRowAux h
  exact ⟨i, hi, by simpa using hx⟩

/-- Every entry the min-max scaler produces lies in `[0, 1]`. -/
theorem minMaxScaler_mem_bounds (t : Table) :
    ∀ r ∈ minMaxScaler t, ∀ x ∈ r, 0 ≤ x ∧ x ≤ 1 := by
  intro r hr x hx
  simp only [minMaxScaler, scaleTable, List.mem_map] at hr
  obtain ⟨r₀, hr₀, rfl⟩ := hr
  obtain ⟨i, hi, rfl⟩ := mem_scaleRow hx
  have hv : r₀.getD i 0 ∈ colVals t i := List.mem_map_of_mem _ hr₀
  have h1 : listMin (colVals t i) ≤ r₀.getD i 0 := listMin_le hv
  have h2 : r₀.getD i 0 ≤ listMax (colVals t i) := le_listMax hv
  by_cases hd : listMax (colVals t i) - listMin (colVals t i) = 0
  · rw [handleZeros, if_pos hd, div_one, show r₀.getD i 0 - listMin (colVals t i) = 0
      from by linarith]
    norm_num
  · have hd0 : 0 < listMax (colVals t i) - listMin (colVals t i) :=
      lt_of_le_of_ne (by linarith) (Ne.symm hd)
    rw [handleZeros, if_neg hd]
    exact ⟨div_nonneg (by linarith) hd0.le, (div_le_one hd0).mpr (by linarith)⟩

/-- C4: the chi-squared scorer is never applied to a negative value in
the polynomial-feature selection step: `MinMaxScaler`'s output lies in
`[0, 1]` for every entry, so on the scaled table `chi2`'s positivity
precondition holds and its error branch for negative input is
unreachable — it returns `ok` scores for every input table and target. -/
theorem chi2_after_minMax_ok (t : Table) (y : List ℤ) :
    (∀ r ∈ minMaxScaler t, ∀ x ∈ r, 0 ≤ x ∧ x ≤ 1) ∧
    chi2 (minMaxScaler t) y =
      Except.ok ((List.range ((minMaxScaler t).headD []).length).map
        (fun j => chi2Stat (colVals (minMaxScaler t) j) y)) := by
  refine ⟨minMaxScaler_mem_bounds t, ?_⟩
  have hneg : ¬ ∃ r ∈ minMaxScaler t, ∃ x ∈ r, x < 0 := by
    rintro ⟨r, hr, x, hx, hlt⟩
    exact absurd hlt (not_lt.mpr (minMaxScaler_mem_bounds t r hr x hx).1)
  rw [chi2, if_neg hneg]

/-! ### Univariate selection: SelectKBest -/

/-- Modelled from the spec: the support of `SelectKBest` — the indices
of the `k` highest-scoring features, listed in their original column
order.  A stable ascending sort of (score, index) pairs is taken, the
last `k` pairs (the highest scores, ties resolved towards the later
index) are kept, and the chosen indices are put back in ascending
order. -/
noncomputable def kBestSupport (scores : List ℝ) (k : ℕ) : List ℕ :=
  (((((List.range scores.length).map (fun j => (scores.getD j 0, j))).insertionSort
      (fun a b => a.1 < b.1 ∨ (a.1 = b.1 ∧ a.2 ≤ b.2))).reverse.take k).map
    Prod.snd).insertionSort (fun a b => a ≤ b)

/-- Modelled from the spec: a fitted selector's `transform` keeps, in
each row, exactly the columns of the support, unmodified. -/
noncomputable def selectTransform (scores : List ℝ) (k : ℕ) (t : Table) : Table :=
  t.map (fun row => (kBestSupport scores k).map (fun j => row.getD j 0))

theorem length_kBestSupport (scores : List ℝ) (k : ℕ) (hk : k ≤ scores.length) :
    (kBestSupport scores k).length = k := by
  unfold kBestSupport
  rw [List.length_insertionSort, List.length_map, List.length_take,
    List.length_reverse, List.length_insertionSort, List.length_map,
    List.length_range]
  omega

theorem kBestSupport_mem_lt (scores : List ℝ) (k : ℕ) :
    ∀ j ∈ kBestSupport scores k, j < scores.length := by
  intro j hj
  unfold kBestSupport at hj
  have hj1 := (List.perm_insertionSort _ _).mem_iff.mp hj
  simp only [List.mem_map] at hj1
  obtain ⟨p, hp, rfl⟩ := hj1
  have hp1 := List.take_subset _ _ hp
  rw [List.mem_reverse] at hp1
  have hp2 := (List.perm_insertionSort _ _).mem_iff.mp hp1
  simp only [List.mem_map, List.mem_range] at hp2
  obtain ⟨i, hi, rfl⟩ := hp2
  exact hi

theorem colVals_selectTransform (scores : List ℝ) (k : ℕ) (t : Table) (p : ℕ)
    (hp : p < (kBestSupport scores k).length) :
    colVals (selectTransform scores k t) p =
      colVals t ((kBestSupport scores k).getD p 0) := by
  simp only [colVals, selectTransform, List.map_map]
  apply List.map_congr_left
  intro r _
  simp only [Function.comp_apply]
  exact getD_map_of_lt _ 0 0 _ p hp

/-- C2: `SelectKBest(chi2, k=5).fit_transform` on the 30-feature cancer
table discards a subset of columns and keeps the rest unchanged: the
output has the same number of rows as the input and exactly 5 columns,
and each output column is one of the original 30 input columns with its
values unmodified. -/
theorem selectKBest_shape (t : Table) (y : List ℤ) (scores : List ℝ)
    (ht : t ≠ []) (hn : ∀ r ∈ t, r.length = 30)
    (hok : chi2 t y = Except.ok scores) :
    (selectTransform scores 5 t).length = t.length ∧
    (∀ r ∈ selectTransform scores 5 t, r.length = 5) ∧
    (∀ p < 5, ∃ j < 30, colVals (selectTransform scores 5 t) p = colVals t j) := by
  have hslen : scores.length = 30 := by
    rw [chi2] at hok
    split_ifs at hok
    have hX := Except.ok.inj hok
    rw [← hX]
    simp only [List.length_map, List.length_range]
    cases t with
    | nil => exact absurd rfl ht
    | cons r t' => simpa using hn r (List.mem_cons_self r t')
  have hlen5 := length_kBestSupport scores 5 (by omega)
  refine ⟨by simp [selectTransform], ?_, ?_⟩
  · intro r hr
    simp only [selectTransform, List.mem_map] at hr
    obtain ⟨r₀, -, rfl⟩ := hr
    simp [hlen5]
  · intro p hp
    refine ⟨(kBestSupport scores 5).getD p 0, ?_,
      colVals_selectTransform _ _ _ _ (by omega)⟩
    have := kBestSupport_mem_lt scores 5 _ (getD_mem_of_lt 0 _ p (by omega))
    omega

/-- A one-row, 30-column table of ones, used to witness the selection
claims on a concrete input. -/
noncomputable def witnessTable : Table := [List.replicate 30 (1 : ℝ)]

/-- The chi-squared scores of `witnessTable` against the single label
`0`, exactly as `chi2` returns them. -/
noncomputable def witnessScores : List ℝ :=
  (List.range 30).map (fun j => chi2Stat (colVals witnessTable j) [0])

theorem chi2_witnessTable :
    chi2 witnessTable [0] = Except.ok witnessScores := by
  have hno : ¬ ∃ r ∈ witnessTable, ∃ x ∈ r, x < 0 := by
    rintro ⟨r, hr, x, hx, hlt⟩
    rw [witnessTable, List.mem_singleton] at hr
    subst hr
    rw [List.eq_of_mem_replicate hx] at hlt
    norm_num at hlt
  rw [chi2, if_neg hno,
    show (witnessTable.headD []).length = 30 from by rw [witnessTable]; simp]
  rfl

/-- Witness for C2 on `witnessTable`. -/
theorem selectKBest_shape_witness :
    (selectTransform witnessScores 5 witnessTable).length = witnessTable.length ∧
    (∀ r ∈ selectTransform witnessScores 5 witnessTable, r.length = 5) ∧
    (∀ p < 5, ∃ j < 30,
      colVals (selectTransform witnessScores 5 witnessTable) p =
        colVals witnessTable j) :=
  selectKBest_shape witnessTable [0] witnessScores (by rw [witnessTable]; simp)
    (by
      intro r hr
      rw [witnessTable, List.mem_singleton] at hr
      subst hr
      simp)
    chi2_witnessTable

/-! ### Recursive feature elimination -/

/-- Modelled from the spec: the least-important remaining feature under
the importance values of the model fitted on the current feature subset
(ties resolved towards the earlier feature). -/
noncomputable def leastImportant (imp : ℕ → ℝ) (feats : List ℕ) : ℕ :=
  feats.foldl (fun a b => if imp b < imp a then b else a) (feats.headD 0)

/-- Modelled from the spec: recursive feature elimination with
`step=1` — while more than `target` features remain, refit on the
remaining features and remove the single least-important one.  Returns
the surviving features and the eliminated features in elimination
order; the fuel bounds the number of rounds. -/
noncomputable def rfeAux (imp : List ℕ → ℕ → ℝ) (target : ℕ) :
    ℕ → List ℕ → List ℕ × List ℕ
  | 0, feats => (feats, [])
  | fuel + 1, feats =>
    if feats.length ≤ target then (feats, [])
    else
      let f := leastImportant (imp feats) feats
      let res := rfeAux imp target fuel (feats.erase f)
      (res.1, f :: res.2)

/-- `RFE(estimator, n_features_to_select=target, step=1).fit`:
the elimination loop started with enough fuel for every round. -/
noncomputable def rfe (imp : List ℕ → ℕ → ℝ) (target : ℕ) (feats : List ℕ) :
    List ℕ × List ℕ :=
  rfeAux imp target feats.length feats

theorem foldl_choice_mem (imp : ℕ → ℝ) :
    ∀ (l : List ℕ) (a : ℕ),
      l.foldl (fun a b => if imp b < imp a then b else a) a ∈ a :: l
  | [], a => List.mem_singleton_self a
  | x :: l, a => by
      rw [List.foldl_cons]
      have ih := foldl_choice_mem imp l (if imp x < imp a then x else a)
      rcases List.mem_cons.mp ih with h | h
      · rw [h]
        by_cases hc : imp x < imp a
        · rw [if_pos hc]
          exact List.mem_cons_of_mem _ (List.mem_cons_self _ _)
        · rw [if_neg hc]
          exact List.mem_cons_self _ _
      · exact List.mem_cons_of_mem _ (List.mem_cons_of_mem _ h)

theorem leastImportant_mem (imp : ℕ → ℝ) {feats : List ℕ} (h : feats ≠ []) :
    leastImportant imp feats ∈ feats := by
  cases feats with
  | nil => exact absurd rfl h
  | cons x l =>
      have := foldl_choice_mem imp (x :: l) (List.headD (x :: l) 0)
      rcases List.mem_cons.mp this with h1 | h1
      · rw [leastImportant, h1]
        exact List.mem_cons_self x l
      · rw [leastImportant]
        exact h1

theorem rfeAux_lengths (imp : List ℕ → ℕ → ℝ) (target : ℕ) :
    ∀ (fuel : ℕ) (feats : List ℕ), feats.length ≤ target + fuel →
      (rfeAux imp target fuel feats).1.length = min target feats.length ∧
      (rfeAux imp target fuel feats).2.length =
        feats.length - min target feats.length
  | 0, feats, h => by
      rw [rfeAux]
      refine ⟨?_, ?_⟩
      · show feats.length = min target feats.length
        omega
      · show ([] : List ℕ).length = feats.length - min target feats.length
        simp only [List.length_nil]
        omega
  | fuel + 1, feats, h => by
      rw [rfeAux]
      by_cases hc : feats.length ≤ target
      · rw [if_pos hc]
        refine ⟨?_, ?_⟩
        · show feats.length = min target feats.length
          omega
        · show ([] : List ℕ).length = feats.length - min target feats.length
          simp only [List.length_nil]
          omega
      · rw [if_neg hc]
        have hne : feats ≠ [] := by
          intro hnil
          rw [hnil] at hc
          exact hc (by simp)
        have hmem := leastImportant_mem (imp feats) hne
        have herase : (feats.erase (leastImportant (imp feats) feats)).length =
            feats.length - 1 := List.length_erase_of_mem hmem
        have ih := rfeAux_lengths imp target fuel
          (feats.erase (leastImportant (imp feats) feats)) (by omega)
        constructor
        · rw [ih.1, herase]
          omega
        · simp only [List.length_cons]
          rw [ih.2, herase]
          omega

/-- C3: `RFE(estimator=lr, n_features_to_select=5, step=1)` on a
30-feature table follows the stated loop: starting from all features,
each round refits on the remaining features and removes the single
least-important remaining feature — the first eliminated feature is the
least-important one of the full set — and the loop runs exactly 25
elimination rounds, stopping with exactly 5 features remaining. -/
theorem rfe_cancer_rounds (imp : List ℕ → ℕ → ℝ) (feats : List ℕ)
    (h : feats.length = 30) :
    (rfe imp 5 feats).1.length = 5 ∧
    (rfe imp 5 feats).2.length = 25 ∧
    (rfe imp 5 feats).2.head? = some (leastImportant (imp feats) feats) := by
  have hs := rfeAux_lengths imp 5 feats.length feats (by omega)
  refine ⟨?_, ?_, ?_⟩
  · rw [rfe, hs.1]
    omega
  · rw [rfe, hs.2]
    omega
  · rw [rfe, h, show (30 : ℕ) = 29 + 1 from rfl, rfeAux,
      if_neg (by omega : ¬ feats.length ≤ 5)]
    rfl

/-- Witness for C3 on the feature list `0..29` with importance equal to
the feature index. -/
theorem rfe_cancer_rounds_witness :
    (rfe (fun _ j => (j : ℝ)) 5 (List.range 30)).1.length = 5 ∧
    (rfe (fun _ j => (j : ℝ)) 5 (List.range 30)).2.length = 25 ∧
    (rfe (fun _ j => (j : ℝ)) 5 (List.range 30)).2.head? =
      some (leastImportant (fun j => (j : ℝ)) (List.range 30)) :=
  rfe_cancer_rounds (fun _ j => (j : ℝ)) (List.range 30) (by simp)

/-! ### Fitted attribute extents -/

/-- Modelled from the spec: the fitted RFE's `ranking_` — one rank per
input feature.  A selected feature has rank 1; the feature eliminated
in round `i` of `R` rounds (1-indexed) has rank `R + 2 - i`, so the
first eliminated feature ranks worst. -/
noncomputable def rfeRanking (imp : List ℕ → ℕ → ℝ) (target : ℕ)
    (feats : List ℕ) : List ℕ :=
  let res := rfe imp target feats
  feats.map (fun f => if f ∈ res.1 then 1 else res.2.length + 1 - res.2.indexOf f)

/-- Modelled from the spec: `RFECV.fit` scores every candidate feature
count by cross-validation and `n_features_` is the best-scoring count
among the candidates `1..n` (ties keep the smaller count). -/
noncomputable def rfecvNFeatures (cv : ℕ → ℝ) (n : ℕ) : ℕ :=
  (List.range' 1 n).foldl (fun a b => if cv a < cv b then b else a)
    ((List.range' 1 n).headD 1)

theorem foldl_pick_mem (g : ℕ → ℕ → ℕ) (hg : ∀ a b, g a b = a ∨ g a b = b) :
    ∀ (l : List ℕ) (a : ℕ), l.foldl g a ∈ a :: l
  | [], a => List.mem_singleton_self a
  | x :: l, a => by
      rw [List.foldl_cons]
      have ih := foldl_pick_mem g hg l (g a x)
      rcases List.mem_cons.mp ih with h | h
      · rcases hg a x with h2 | h2
        · rw [h, h2]
          exact List.mem_cons_self _ _
        · rw [h, h2]
          exact List.mem_cons_of_mem _ (List.mem_cons_self _ _)
      · exact List.mem_cons_of_mem _ (List.mem_cons_of_mem _ h)

theorem chi2_ok_length {t : Table} {y : List ℤ} {scores : List ℝ}
    (ht : t ≠ []) (hn : ∀ r ∈ t, r.length = 30)
    (hok : chi2 t y = Except.ok scores) : scores.length = 30 := by
  rw [chi2] at hok
  split_ifs at hok
  have hX := Except.ok.inj hok
  rw [← hX]
  simp only [List.length_map, List.length_range]
  cases t with
  | nil => exact absurd rfl ht
  | cons r t' => simpa using hn r (List.mem_cons_self r t')

/-- C5: after a selector's fit completes, its result attributes have the
stated per-feature extents: the chi2 `SelectKBest` scores are one per
input feature (30 on the raw cancer table); the RFE ranking is one rank
per input feature, and every selected feature has rank 1; and the RFECV
selected feature count `n_features_` satisfies
`1 ≤ n_features_ ≤ number of input features`. -/
theorem fitted_attribute_extents :
    (∀ (t : Table) (y : List ℤ) (scores : List ℝ), t ≠ [] →
      (∀ r ∈ t, r.length = 30) → chi2 t y = Except.ok scores →
      scores.length = 30) ∧
    (∀ (imp : List ℕ → ℕ → ℝ) (target : ℕ) (feats : List ℕ),
      (rfeRanking imp target feats).length = feats.length ∧
      ∀ i < feats.length, feats.getD i 0 ∈ (rfe imp target feats).1 →
        (rfeRanking imp target feats).getD i 0 = 1) ∧
    (∀ (cv : ℕ → ℝ) (n : ℕ), 1 ≤ n →
      1 ≤ rfecvNFeatures cv n ∧ rfecvNFeatures cv n ≤ n) := by
  refine ⟨fun t y scores ht hn hok => chi2_ok_length ht hn hok, ?_, ?_⟩
  · intro imp target feats
    constructor
    · simp [rfeRanking]
    · intro i hi hmem
      have hmap := getD_map_of_lt
        (fun f => if f ∈ (rfe imp target feats).1 then 1
          else (rfe imp target feats).2.length + 1 - (rfe imp target feats).2.indexOf f)
        0 0 feats i hi
      simp only [rfeRanking]
      rw [hmap]
      exact if_pos hmem
  · intro cv n hn
    have hmem := foldl_pick_mem (fun a b => if cv a < cv b then b else a)
      (fun a b => by
        by_cases h : cv a < cv b
        · exact Or.inr (if_pos h)
        · exact Or.inl (if_neg h))
      (List.range' 1 n) ((List.range' 1 n).headD 1)
    have hhead : (List.range' 1 n).headD 1 = 1 := by
      cases n with
      | zero => exact absurd hn (by omega)
      | succ m => rfl
    rw [← rfecvNFeatures] at hmem
    rcases List.mem_cons.mp hmem with h | h
    · rw [h, hhead]
      omega
    · have := List.mem_range'_1.mp h
      omega

/-- Witness for C5: the chi2 scores of the one-row table of ones, the
ranking of a one-feature RFE run, and RFECV over a single candidate
count. -/
theorem fitted_attribute_extents_witness :
    witnessScores.length = 30 ∧
    (rfeRanking (fun _ j => (j : ℝ)) 5 [0]).getD 0 0 = 1 ∧
    (1 ≤ rfecvNFeatures (fun _ => 0) 1 ∧ rfecvNFeatures (fun _ => 0) 1 ≤ 1) :=
  ⟨fitted_attribute_extents.1 witnessTable [0] witnessScores
      (by rw [witnessTable]; simp)
      (by
        intro r hr
        rw [witnessTable, List.mem_singleton] at hr
        subst hr
        simp)
      chi2_witnessTable,
   (fitted_attribute_extents.2.1 (fun _ j => (j : ℝ)) 5 [0]).2 0 (by norm_num)
      (List.mem_singleton_self 0),
   fitted_attribute_extents.2.2 (fun _ => 0) 1 (le_refl 1)⟩

/-! ### The notebook as a sequence of cells -/

/-- The externally visible effect kinds a cell could have. -/
inductive Effect
  | console
  | plot
  | fileWrite
  | networkSend
  deriving DecidableEq

/-- One library call of a notebook cell: the cell's index in the
notebook source, the externally visible effects of the cell's code, and
the `n_jobs` argument when the call passes one. -/
structure LibCall where
  cellIdx : ℕ
  effects : List Effect
  njobs : Option ℤ
  deriving DecidableEq

/-- A notebook statement: a plain library call, a call wrapped in an
exception handler, or a call spawned on its own thread.  The embedding
language has the latter two constructs so their absence from the
notebook is a checkable property; the notebook's cells use only plain
calls. -/
inductive NbStmt
  | call (c : LibCall)
  | tryCatch (body handler : LibCall)
  | spawnThread (c : LibCall)
  deriving DecidableEq

/-- The notebook's code cells in execution order, embedded from the
source: a cell that prints or displays a value has a console effect, a
cell that renders a figure has a plot effect, and the only cell passing
an `n_jobs` argument is the `RFECV(estimator=rfc, n_jobs=-1)` cell. -/
def notebookStmts : List NbStmt :=
  [.call ⟨1, [], none⟩, .call ⟨3, [.console], none⟩, .call ⟨4, [.console], none⟩,
   .call ⟨5, [.plot], none⟩, .call ⟨6, [.plot], none⟩,
   .call ⟨8, [.console], none⟩, .call ⟨9, [.console], none⟩,
   .call ⟨10, [.plot], none⟩, .call ⟨11, [.plot], none⟩,
   .call ⟨13, [.console], none⟩, .call ⟨14, [.console], none⟩,
   .call ⟨15, [.plot], none⟩, .call ⟨16, [.plot], none⟩,
   .call ⟨18, [.console], none⟩, .call ⟨19, [.console], none⟩,
   .call ⟨20, [.plot], none⟩, .call ⟨21, [.plot], none⟩,
   .call ⟨23, [.console], none⟩, .call ⟨24, [.console], none⟩,
   .call ⟨25, [.plot], none⟩, .call ⟨26, [.plot], none⟩,
   .call ⟨29, [], none⟩, .call ⟨31, [.console], none⟩,
   .call ⟨32, [.console], none⟩, .call ⟨34, [], none⟩,
   .call ⟨35, [.console], none⟩, .call ⟨37, [.console], none⟩,
   .call ⟨39, [.console], none⟩, .call ⟨42, [.plot], none⟩,
   .call ⟨44, [], none⟩, .call ⟨45, [.console], none⟩,
   .call ⟨46, [.console], none⟩, .call ⟨48, [.console], none⟩,
   .call ⟨50, [.console], some (-1)⟩]

/-- Whether a statement wraps its call in an exception handler. -/
def hasCatch : NbStmt → Bool
  | .tryCatch _ _ => true
  | _ => false

/-- Whether a statement spawns its call on its own thread. -/
def isSpawn : NbStmt → Bool
  | .spawnThread _ => true
  | _ => false

/-- The effects a statement performs. -/
def stmtEffects : NbStmt → List Effect
  | .call c => c.effects
  | .tryCatch b h => b.effects ++ h.effects
  | .spawnThread c => c.effects

/-- The `n_jobs` argument a statement's call passes, if any. -/
def stmtNjobs : NbStmt → Option ℤ
  | .call c => c.njobs
  | .tryCatch b _ => b.njobs
  | .spawnThread c => c.njobs

/-- Run one statement against a library implementation: a plain call
propagates the library's result; `tryCatch` recovers from failure with
its handler. -/
def runStmt {St Err : Type} (lib : LibCall → St → Except Err St) :
    NbStmt → St → Except Err St
  | .call c, s => lib c s
  | .tryCatch b h, s =>
      match lib b s with
      | .error _ => lib h s
      | .ok s1 => .ok s1
  | .spawnThread c, s => lib c s

/-- Run statements in order, stopping at the first error. -/
def runStmts {St Err : Type} (lib : LibCall → St → Except Err St) :
    List NbStmt → St → Except Err St
  | [], s => .ok s
  | stmt :: rest, s =>
      match runStmt lib stmt s with
      | .error e => .error e
      | .ok s1 => runStmts lib rest s1

theorem runStmts_append {St Err : Type} (lib : LibCall → St → Except Err St) :
    ∀ (l1 l2 : List NbStmt) (s : St),
      runStmts lib (l1 ++ l2) s =
        match runStmts lib l1 s with
        | .error e => .error e
        | .ok s1 => runStmts lib l2 s1
  | [], _, _ => rfl
  | stmt :: rest, l2, s => by
      rw [List.cons_append, runStmts, runStmts]
      cases runStmt lib stmt s with
      | error e => rfl
      | ok s1 => exact runStmts_append lib rest l2 s1

/-- C6: no cell of the notebook catches, wraps, re-raises or recovers
from an error, and any exception raised by a library call propagates
unchanged: whenever the cells before cell `c` succeed and `c`'s library
call fails with error `e`, the whole notebook run returns exactly
`Except.error e`. -/
theorem notebook_error_propagation :
    (notebookStmts.all (fun stmt => !hasCatch stmt)) = true ∧
    ∀ (St Err : Type) (lib : LibCall → St → Except Err St)
      (pre post : List NbStmt) (c : LibCall) (s s1 : St) (e : Err),
      notebookStmts = pre ++ NbStmt.call c :: post →
      runStmts lib pre s = Except.ok s1 →
      lib c s1 = Except.error e →
      runStmts lib notebookStmts s = Except.error e := by
  refine ⟨by decide, ?_⟩
  intro St Err lib pre post c s s1 e hsplit hpre herr
  rw [hsplit, runStmts_append lib pre (NbStmt.call c :: post) s, hpre]
  show runStmts lib (NbStmt.call c :: post) s1 = Except.error e
  rw [runStmts, show runStmt lib (NbStmt.call c) s1 = Except.error e from herr]

/-- Witness for C6: with a library whose first call fails with error
`7`, the notebook run returns exactly that error. -/
theorem notebook_error_propagation_witness :
    runStmts (fun _ _ => Except.error 7) notebookStmts () = Except.error (7 : ℕ) :=
  notebook_error_propagation.2 Unit ℕ (fun _ _ => Except.error 7) []
    notebookStmts.tail ⟨1, [], none⟩ () () 7 rfl rfl rfl

/-- The external world as the notebook could affect it: persisted
files, network traffic, console output and inline plots, counted
abstractly. -/
structure World where
  files : ℕ
  network : ℕ
  consoleOut : ℕ
  plots : ℕ

/-- Apply one effect to the world. -/
def applyEffect (w : World) : Effect → World
  | .console => { w with consoleOut := w.consoleOut + 1 }
  | .plot => { w with plots := w.plots + 1 }
  | .fileWrite => { w with files := w.files + 1 }
  | .networkSend => { w with network := w.network + 1 }

/-- All effects of a full notebook run, in order. -/
def notebookEffects : List Effect := (notebookStmts.map stmtEffects).flatten

/-- Replay a list of effects on a world. -/
def runWorld (w : World) (es : List Effect) : World := es.foldl applyEffect w

theorem runWorld_preserves (es : List Effect)
    (h : ∀ e ∈ es, e = Effect.console ∨ e = Effect.plot) (w : World) :
    (runWorld w es).files = w.files ∧ (runWorld w es).network = w.network := by
  induction es generalizing w with
  | nil => exact ⟨rfl, rfl⟩
  | cons e es ih =>
      have he := h e (List.mem_cons_self _ _)
      have hrest := ih (fun x hx => h x (List.mem_cons_of_mem _ hx)) (applyEffect w e)
      have hstep : (applyEffect w e).files = w.files ∧
          (applyEffect w e).network = w.network := by
        rcases he with he | he <;> rw [he] <;> exact ⟨rfl, rfl⟩
      have hfold : runWorld w (e :: es) = runWorld (applyEffect w e) es := by
        rw [runWorld, runWorld, List.foldl_cons]
      rw [hfold]
      exact ⟨hrest.1.trans hstep.1, hrest.2.trans hstep.2⟩

/-- C7: no cell writes to persistent storage or any external channel:
every effect of every cell is console output or an inline plot, and a
complete run leaves the file system and the network exactly as it found
them. -/
theorem notebook_frame_effects :
    (∀ e ∈ notebookEffects, e = Effect.console ∨ e = Effect.plot) ∧
    ∀ w : World, (runWorld w notebookEffects).files = w.files ∧
      (runWorld w notebookEffects).network = w.network :=
  ⟨by decide, fun w => runWorld_preserves notebookEffects (by decide) w⟩

/-- C10: the notebook creates no threads or processes and performs no
concurrency coordination of its own: no statement spawns a thread,
execution is the sequential left-to-right composition of the cells, and
the only call passing a parallelism degree to the library is the
`RFECV(n_jobs=-1)` cell. -/
theorem notebook_sequential :
    (notebookStmts.all (fun stmt => !isSpawn stmt)) = true ∧
    (notebookStmts.filter (fun stmt => (stmtNjobs stmt).isSome) =
      [NbStmt.call ⟨50, [Effect.console], some (-1)⟩]) ∧
    ∀ (St Err : Type) (lib : LibCall → St → Except Err St)
      (stmt : NbStmt) (rest : List NbStmt) (s : St),
      runStmts lib (stmt :: rest) s =
        match runStmt lib stmt s with
        | Except.error e => Except.error e
        | Except.ok s1 => runStmts lib rest s1 :=
  ⟨by decide, by decide, fun _ _ _ _ _ _ => rfl⟩

end FeatureSelection
